import Mathlib

/-!
Verification of the MARA arbitrage analyzer core (`arbitrage_analyzer.py`):
the greedy allocation optimizer `find_optimal_allocation`, the two
single-category baseline strategies, and the strategy simulator
`simulate_strategy`.

Modelling choices:
* Python floats are modelled as exact rationals (`ℚ`); integer quantities
  (power draws, the site power limit, unit counts) as `Int`, with Python's
  floor division `//` modelled by `Int.fdiv`.
* A Python `ZeroDivisionError` (raised when a device has `power = 0`) is
  modelled with `Except PyErr`; the source contains no other failure path.
* The wall clock read by `datetime.now().isoformat()` is passed in as an
  explicit `now : String` argument.
* Python's `list.sort(key=..., reverse=True)` is a stable descending sort;
  it is modelled by `List.insertionSort` with the total preorder `effGE`
  (insertion sort is stable, so it computes the same list).
-/

set_option linter.unusedVariables false

namespace Mara

/-- Device category: a key of the inventory dict, `'miners'` or `'inference'`. -/
inductive MType where
  | miner
  | inference
deriving DecidableEq, Repr

/-- Specs of one device subtype: `power` draw per unit and its capability
(`hashrate` for a miner, `tokens` for an inference machine). -/
structure DevSpecs where
  power : Int
  capability : ℚ
deriving DecidableEq, Repr

/-- The device catalog `self.inventory`: the `'miners'` and `'inference'`
dicts, each an insertion-ordered association list. -/
structure Inventory where
  miners : List (String × DevSpecs)
  inference : List (String × DevSpecs)
deriving DecidableEq, Repr

/-- One price snapshot `{energy_price, hash_price, token_price}`. -/
structure Prices where
  energy_price : ℚ
  hash_price : ℚ
  token_price : ℚ
deriving DecidableEq, Repr

/-- The only exception the core can raise: Python's `ZeroDivisionError`,
triggered by a device with `power = 0`. -/
inductive PyErr where
  | zeroDivisionError
deriving DecidableEq, Repr

/-- Propagate the first error through a list, as a Python `for` loop does. -/
def mapE (f : α → Except PyErr β) : List α → Except PyErr (List β)
  | [] => .ok []
  | x :: xs =>
    match f x with
    | .error e => .error e
    | .ok y => (mapE f xs).map (fun ys => y :: ys)

/-- The capability price used for a category: `hash_price` for miners,
`token_price` for inference machines. -/
def capPrice (t : MType) (p : Prices) : ℚ :=
  match t with
  | .miner => p.hash_price
  | .inference => p.token_price

/-- `profit_per_watt` as computed in the source:
`capability * price / power - energy_price`. -/
def ppwOf (s : DevSpecs) (cap_price energy : ℚ) : ℚ :=
  s.capability * cap_price / (s.power : ℚ) - energy

/-- One element of the `machine_efficiency` list built by
`find_optimal_allocation`. -/
structure EffRec where
  type : MType
  subtype : String
  power : Int
  profit_per_watt : ℚ
  revenue_per_watt : ℚ
  capability : ℚ
  price_type : String
deriving DecidableEq, Repr

/-- Build the `machine_efficiency` record for one catalog entry
(the value computed when `power ≠ 0`). -/
def mkEffRec (t : MType) (p : Prices) (x : String × DevSpecs) : EffRec :=
  { type := t
    subtype := x.1
    power := x.2.power
    revenue_per_watt := x.2.capability * capPrice t p / (x.2.power : ℚ)
    profit_per_watt := ppwOf x.2 (capPrice t p) p.energy_price
    capability := x.2.capability
    price_type := match t with | .miner => "hash_price" | .inference => "token_price" }

/-- Build the efficiency record, raising `ZeroDivisionError` exactly when the
Python expression `... / specs['power']` would. -/
def mkEffRec? (t : MType) (p : Prices) (x : String × DevSpecs) : Except PyErr EffRec :=
  if x.2.power = 0 then .error .zeroDivisionError else .ok (mkEffRec t p x)

/-- The full `machine_efficiency` list (miners first, then inference, in
catalog insertion order), ignoring zero-power errors. -/
def machine_efficiency (inv : Inventory) (p : Prices) : List EffRec :=
  inv.miners.map (mkEffRec .miner p) ++ inv.inference.map (mkEffRec .inference p)

/-- The `machine_efficiency` list as actually computed, with Python's
`ZeroDivisionError` on a zero-power device. -/
def machine_efficiency? (inv : Inventory) (p : Prices) : Except PyErr (List EffRec) :=
  match mapE (mkEffRec? .miner p) inv.miners with
  | .error e => .error e
  | .ok ms =>
    match mapE (mkEffRec? .inference p) inv.inference with
    | .error e => .error e
    | .ok is => .ok (ms ++ is)

/-- The comparison used by `machine_efficiency.sort(key=profit_per_watt,
reverse=True)`: `a` may come before `b` iff `b`'s rate is at most `a`'s. -/
def effGE (a b : EffRec) : Prop :=
  b.profit_per_watt ≤ a.profit_per_watt

instance : DecidableRel effGE :=
  fun a b => inferInstanceAs (Decidable (b.profit_per_watt ≤ a.profit_per_watt))

instance : IsTotal EffRec effGE :=
  ⟨fun a b => le_total b.profit_per_watt a.profit_per_watt⟩

instance : IsTrans EffRec effGE :=
  ⟨fun _ _ _ h1 h2 => le_trans h2 h1⟩

/-- One value of the `allocation` dict produced by the greedy loop. -/
structure AllocEntry where
  units : Int
  type : MType
  subtype : String
  power_used : Int
  profit : ℚ
  revenue : ℚ
  cost : ℚ
deriving DecidableEq, Repr

/-- The loop state of the greedy allocation: the `allocation` dict (in
insertion order), `remaining_power`, and the running totals. -/
structure GreedyState where
  allocation : List AllocEntry
  remaining_power : Int
  total_profit : ℚ
  total_revenue : ℚ
  total_cost : ℚ
deriving DecidableEq, Repr

/-- The entry inserted into `allocation` for machine `m`
(`max_units = remaining_power // power`). -/
def greedyEntry (energy : ℚ) (st : GreedyState) (m : EffRec) : AllocEntry :=
  { units := Int.fdiv st.remaining_power m.power
    type := m.type
    subtype := m.subtype
    power_used := Int.fdiv st.remaining_power m.power * m.power
    profit := ((Int.fdiv st.remaining_power m.power * m.power : Int) : ℚ) * m.profit_per_watt
    revenue := ((Int.fdiv st.remaining_power m.power * m.power : Int) : ℚ) * m.revenue_per_watt
    cost := ((Int.fdiv st.remaining_power m.power * m.power : Int) : ℚ) * energy }

/-- One iteration of the greedy loop: skip unprofitable machines, else fit
`max_units = remaining_power // power` whole units if at least one fits. -/
def greedyStep (energy : ℚ) (st : GreedyState) (m : EffRec) : GreedyState :=
  if m.profit_per_watt ≤ 0 then st
  else if 0 < Int.fdiv st.remaining_power m.power then
    { allocation := st.allocation ++ [greedyEntry energy st m]
      remaining_power := st.remaining_power - Int.fdiv st.remaining_power m.power * m.power
      total_profit := st.total_profit + (greedyEntry energy st m).profit
      total_revenue := st.total_revenue + (greedyEntry energy st m).revenue
      total_cost := st.total_cost + (greedyEntry energy st m).cost }
  else st

/-- The greedy loop over the sorted machine list. -/
def greedyRun (energy : ℚ) (st : GreedyState) : List EffRec → GreedyState
  | [] => st
  | m :: ms => greedyRun energy (greedyStep energy st m) ms

/-- Initial loop state: empty allocation, full site power limit, zero totals. -/
def initState (site_power_limit : Int) : GreedyState :=
  { allocation := []
    remaining_power := site_power_limit
    total_profit := 0
    total_revenue := 0
    total_cost := 0 }

/-- The dict returned by `find_optimal_allocation`. -/
structure AllocationPlan where
  allocation : List AllocEntry
  total_power_used : Int
  total_profit : ℚ
  total_revenue : ℚ
  total_cost : ℚ
  roi_percentage : ℚ
  prices : Prices
  timestamp : String
deriving DecidableEq, Repr

/-- Assemble the result dict from the final loop state. -/
def buildPlan (sorted_machines : List EffRec) (p : Prices) (site_power_limit : Int)
    (now : String) : AllocationPlan :=
  let st := greedyRun p.energy_price (initState site_power_limit) sorted_machines
  { allocation := st.allocation
    total_power_used := site_power_limit - st.remaining_power
    total_profit := st.total_profit
    total_revenue := st.total_revenue
    total_cost := st.total_cost
    roi_percentage := if 0 < st.total_cost then st.total_profit / st.total_cost * 100 else 0
    prices := p
    timestamp := now }

/-- `ArbitrageAnalyzer.find_optimal_allocation`: build the efficiency list,
sort it by `profit_per_watt` descending (stably), and fill the budget
greedily.  `now` is the wall-clock reading for the `timestamp` field. -/
def find_optimal_allocation (inv : Inventory) (p : Prices) (site_power_limit : Int)
    (now : String) : Except PyErr AllocationPlan :=
  (machine_efficiency? inv p).map fun ms =>
    buildPlan (List.insertionSort effGE ms) p site_power_limit now

/-- The totals dict returned by the single-category baseline strategies. -/
structure StratSummary where
  total_profit : ℚ
  total_revenue : ℚ
  total_cost : ℚ
  roi_percentage : ℚ
deriving DecidableEq, Repr

/-- The zero totals returned when the category is empty. -/
def zeroSummary : StratSummary :=
  { total_profit := 0, total_revenue := 0, total_cost := 0, roi_percentage := 0 }

/-- One candidate in a baseline strategy loop: name, specs, and its
`profit_per_watt`; raises `ZeroDivisionError` on `power = 0`. -/
def candPpw? (cap_price energy : ℚ) (x : String × DevSpecs) :
    Except PyErr (String × DevSpecs × ℚ) :=
  if x.2.power = 0 then .error .zeroDivisionError
  else .ok (x.1, x.2, ppwOf x.2 cap_price energy)

/-- The running best of the loop `if profit_per_watt > best_profit_per_watt`
(strict improvement, so the first maximum wins). -/
def pickBestAux (best : String × DevSpecs × ℚ) :
    List (String × DevSpecs × ℚ) → String × DevSpecs × ℚ
  | [] => best
  | x :: xs => pickBestAux (if best.2.2 < x.2.2 then x else best) xs

/-- The candidate selected by a baseline loop; `none` iff the category is
empty (the first candidate always beats the initial `-inf`). -/
def pickBest : List (String × DevSpecs × ℚ) → Option (String × DevSpecs × ℚ)
  | [] => none
  | x :: xs => some (pickBestAux x xs)

/-- Shared body of `_mining_only_strategy` and `_inference_only_strategy`:
pick the candidate with the highest `profit_per_watt` (profitable or not)
and give it the whole budget; return zero totals only if the category is
empty. -/
def singleCategory (entries : List (String × DevSpecs)) (cap_price energy : ℚ)
    (site_power_limit : Int) : Except PyErr StratSummary :=
  (mapE (candPpw? cap_price energy) entries).map fun cands =>
    match pickBest cands with
    | none => zeroSummary
    | some best =>
      let units := Int.fdiv site_power_limit best.2.1.power
      let total_power := units * best.2.1.power
      let total_revenue := (units : ℚ) * best.2.1.capability * cap_price
      let total_cost := (total_power : ℚ) * energy
      { total_profit := total_revenue - total_cost
        total_revenue := total_revenue
        total_cost := total_cost
        roi_percentage :=
          if 0 < total_cost then (total_revenue - total_cost) / total_cost * 100 else 0 }

/-- `ArbitrageAnalyzer._mining_only_strategy`. -/
def _mining_only_strategy (inv : Inventory) (p : Prices) (site_power_limit : Int) :
    Except PyErr StratSummary :=
  singleCategory inv.miners p.hash_price p.energy_price site_power_limit

/-- `ArbitrageAnalyzer._inference_only_strategy`. -/
def _inference_only_strategy (inv : Inventory) (p : Prices) (site_power_limit : Int) :
    Except PyErr StratSummary :=
  singleCategory inv.inference p.token_price p.energy_price site_power_limit

/-- One row of the `pricing` table handed to the simulator. -/
structure PriceRow where
  timestamp : String
  energy_price : ℚ
  hash_price : ℚ
  token_price : ℚ
deriving DecidableEq, Repr

/-- The `prices` dict rebuilt from a row inside the simulation loop. -/
def PriceRow.toPrices (r : PriceRow) : Prices :=
  { energy_price := r.energy_price
    hash_price := r.hash_price
    token_price := r.token_price }

/-- The strategy selector of `simulate_strategy`. -/
inductive Strategy where
  | optimal
  | mining_only
  | inference_only
deriving DecidableEq, Repr

/-- One row of the result frame of `simulate_strategy`. -/
structure RunRecord where
  timestamp : String
  profit : ℚ
  revenue : ℚ
  cost : ℚ
  roi : ℚ
deriving DecidableEq, Repr

/-- Dispatch one snapshot to the selected strategy and project its totals. -/
def runStrategy (inv : Inventory) (site_power_limit : Int) (strat : Strategy)
    (p : Prices) (now : String) : Except PyErr StratSummary :=
  match strat with
  | .optimal =>
    (find_optimal_allocation inv p site_power_limit now).map fun pl =>
      { total_profit := pl.total_profit
        total_revenue := pl.total_revenue
        total_cost := pl.total_cost
        roi_percentage := pl.roi_percentage }
  | .mining_only => _mining_only_strategy inv p site_power_limit
  | .inference_only => _inference_only_strategy inv p site_power_limit

/-- The record appended for one historical row. -/
def simRecord (inv : Inventory) (site_power_limit : Int) (strat : Strategy)
    (now : String) (row : PriceRow) : Except PyErr RunRecord :=
  (runStrategy inv site_power_limit strat row.toPrices now).map fun r =>
    { timestamp := row.timestamp
      profit := r.total_profit
      revenue := r.total_revenue
      cost := r.total_cost
      roi := r.roi_percentage }

/-- `ArbitrageAnalyzer.simulate_strategy` on an already-loaded price history:
returns `none` (Python `None`) when the history frame is empty, otherwise one
record per row in order, propagating the first error. -/
def simulate_strategy (inv : Inventory) (site_power_limit : Int) (strat : Strategy)
    (history : List PriceRow) (now : String) : Option (Except PyErr (List RunRecord)) :=
  if history.isEmpty then none
  else some (mapE (simRecord inv site_power_limit strat now) history)

/-- All catalog devices have nonzero power draw (no `ZeroDivisionError`). -/
def NoZeroPower (inv : Inventory) : Prop :=
  (∀ x ∈ inv.miners, x.2.power ≠ 0) ∧ (∀ x ∈ inv.inference, x.2.power ≠ 0)

/-- All catalog devices have positive power draw (the spec's data-model
invariant `powerWatts > 0`). -/
def PosPowers (inv : Inventory) : Prop :=
  (∀ x ∈ inv.miners, 0 < x.2.power) ∧ (∀ x ∈ inv.inference, 0 < x.2.power)

instance (inv : Inventory) : Decidable (NoZeroPower inv) :=
  inferInstanceAs (Decidable (_ ∧ _))

instance (inv : Inventory) : Decidable (PosPowers inv) :=
  inferInstanceAs (Decidable (_ ∧ _))

/-- The default inventory hardcoded in `load_inventory`. -/
def defaultInv : Inventory :=
  { miners :=
      [("air", { power := 3500, capability := 1000 }),
       ("hydro", { power := 5000, capability := 5000 }),
       ("immersion", { power := 10000, capability := 10000 })]
    inference :=
      [("gpu", { power := 5000, capability := 1000 }),
       ("asic", { power := 15000, capability := 50000 })] }

/-- The default prices hardcoded in `get_latest_prices`. -/
def defaultPrices : Prices :=
  { energy_price := 0.65, hash_price := 8.5, token_price := 3.0 }

instance {ε α : Type} [DecidableEq ε] [DecidableEq α] : DecidableEq (Except ε α) := fun a b =>
  match a, b with
  | .error e, .error f => decidable_of_iff (e = f) (by simp)
  | .error _, .ok _ => isFalse (fun h => Except.noConfusion h)
  | .ok _, .error _ => isFalse (fun h => Except.noConfusion h)
  | .ok x, .ok y => decidable_of_iff (x = y) (by simp)

/-! ### Helper lemmas about `mapE` -/

theorem mapE_ok_of {α β : Type} {f : α → Except PyErr β} {g : α → β} :
    ∀ {l : List α}, (∀ x ∈ l, f x = .ok (g x)) → mapE f l = .ok (l.map g) := by
  intro l
  induction l with
  | nil => intro _; rfl
  | cons x xs ih =>
    intro h
    have hx := h x (List.mem_cons_self x xs)
    have hxs := ih (fun y hy => h y (List.mem_cons_of_mem x hy))
    simp [mapE, hx, hxs, Except.map]

theorem mapE_ok_eq {α β : Type} {f : α → Except PyErr β} {g : α → β}
    (hfg : ∀ x y, f x = .ok y → y = g x) :
    ∀ {l : List α} {ys : List β}, mapE f l = .ok ys → ys = l.map g := by
  intro l
  induction l with
  | nil =>
    intro ys h
    simp only [mapE] at h
    cases h
    rfl
  | cons x xs ih =>
    intro ys h
    simp only [mapE] at h
    cases hx : f x with
    | error e => rw [hx] at h; cases h
    | ok y =>
      rw [hx] at h
      cases hxs : mapE f xs with
      | error e => rw [hxs] at h; cases h
      | ok zs =>
        rw [hxs] at h
        simp only [Except.map] at h
        cases h
        rw [List.map_cons, ← hfg x y hx, ← ih hxs]

theorem mapE_ok_exists {α β : Type} {f : α → Except PyErr β} {P : α → β → Prop} :
    ∀ {l : List α}, (∀ x ∈ l, ∃ y, f x = .ok y ∧ P x y) →
      ∃ ys, mapE f l = .ok ys ∧ ys.length = l.length ∧
        ∀ i (h1 : i < l.length) (h2 : i < ys.length),
          P (l.get ⟨i, h1⟩) (ys.get ⟨i, h2⟩) := by
  intro l
  induction l with
  | nil =>
    intro _
    exact ⟨[], rfl, rfl, fun i h1 _ => absurd h1 (Nat.not_lt_zero i)⟩
  | cons x xs ih =>
    intro h
    obtain ⟨y, hy, hPy⟩ := h x (List.mem_cons_self x xs)
    obtain ⟨ys, hys, hlen, hall⟩ := ih (fun z hz => h z (List.mem_cons_of_mem x hz))
    refine ⟨y :: ys, ?_, by simp [hlen], ?_⟩
    · simp [mapE, hy, hys, Except.map]
    · intro i h1 h2
      cases i with
      | zero => exact hPy
      | succ j =>
        exact hall j (Nat.lt_of_succ_lt_succ h1) (Nat.lt_of_succ_lt_succ h2)

/-! ### The efficiency list under well-formed catalogs -/

theorem mkEffRec?_ok {t : MType} {p : Prices} {x : String × DevSpecs} (h : x.2.power ≠ 0) :
    mkEffRec? t p x = .ok (mkEffRec t p x) := by
  simp [mkEffRec?, h]

theorem machine_efficiency?_ok {inv : Inventory} {p : Prices} (h : NoZeroPower inv) :
    machine_efficiency? inv p = .ok (machine_efficiency inv p) := by
  unfold machine_efficiency? machine_efficiency
  rw [mapE_ok_of (g := mkEffRec .miner p) (fun x hx => mkEffRec?_ok (h.1 x hx)),
    mapE_ok_of (g := mkEffRec .inference p) (fun x hx => mkEffRec?_ok (h.2 x hx))]

theorem machine_efficiency?_eq {inv : Inventory} {p : Prices} {ms : List EffRec}
    (h : machine_efficiency? inv p = .ok ms) : ms = machine_efficiency inv p := by
  unfold machine_efficiency? at h
  cases h1 : mapE (mkEffRec? .miner p) inv.miners with
  | error e => rw [h1] at h; cases h
  | ok l1 =>
    rw [h1] at h
    cases h2 : mapE (mkEffRec? .inference p) inv.inference with
    | error e => rw [h2] at h; cases h
    | ok l2 =>
      rw [h2] at h
      cases h
      have e1 : l1 = inv.miners.map (mkEffRec .miner p) :=
        mapE_ok_eq (fun x y hxy => by
          by_cases hx : x.2.power = 0
          · simp [mkEffRec?, hx] at hxy
          · rw [mkEffRec?_ok hx] at hxy; cases hxy; rfl) h1
      have e2 : l2 = inv.inference.map (mkEffRec .inference p) :=
        mapE_ok_eq (fun x y hxy => by
          by_cases hx : x.2.power = 0
          · simp [mkEffRec?, hx] at hxy
          · rw [mkEffRec?_ok hx] at hxy; cases hxy; rfl) h2
      rw [e1, e2]; rfl

theorem noZero_of_pos {inv : Inventory} (h : PosPowers inv) : NoZeroPower inv :=
  ⟨fun x hx => ne_of_gt (h.1 x hx), fun x hx => ne_of_gt (h.2 x hx)⟩

theorem machine_efficiency_power_pos {inv : Inventory} {p : Prices} (h : PosPowers inv) :
    ∀ m ∈ machine_efficiency inv p, 0 < m.power := by
  intro m hm
  rcases List.mem_append.1 hm with hm' | hm'
  · obtain ⟨x, hx, rfl⟩ := List.mem_map.1 hm'
    exact h.1 x hx
  · obtain ⟨x, hx, rfl⟩ := List.mem_map.1 hm'
    exact h.2 x hx

theorem mkEffRec_ppw (t : MType) (p : Prices) (x : String × DevSpecs) :
    (mkEffRec t p x).profit_per_watt = ppwOf x.2 (capPrice t p) p.energy_price := rfl

/-! ### Invariants of the greedy loop -/

/-- Total power recorded across a list of allocation entries. -/
def sumPower (l : List AllocEntry) : Int :=
  (l.map AllocEntry.power_used).sum

theorem sumPower_append (l : List AllocEntry) (e : AllocEntry) :
    sumPower (l ++ [e]) = sumPower l + e.power_used := by
  simp [sumPower]

theorem greedyStep_remaining {e : ℚ} {st : GreedyState} {m : EffRec}
    (hp : 0 < m.power) (h0 : 0 ≤ st.remaining_power) :
    0 ≤ (greedyStep e st m).remaining_power ∧
      (greedyStep e st m).remaining_power ≤ st.remaining_power := by
  unfold greedyStep
  split_ifs with h1 h2
  · exact ⟨h0, le_refl _⟩
  · have hdiv : Int.fdiv st.remaining_power m.power = st.remaining_power / m.power :=
      Int.fdiv_eq_ediv _ hp.le
    have hmod : st.remaining_power - st.remaining_power / m.power * m.power
        = st.remaining_power % m.power := by
      rw [Int.emod_def]; ring
    constructor
    · show 0 ≤ st.remaining_power - Int.fdiv st.remaining_power m.power * m.power
      rw [hdiv, hmod]
      exact Int.emod_nonneg _ (ne_of_gt hp)
    · show st.remaining_power - Int.fdiv st.remaining_power m.power * m.power
        ≤ st.remaining_power
      rw [hdiv]
      have hq : 0 ≤ st.remaining_power / m.power := Int.ediv_nonneg h0 hp.le
      nlinarith
  · exact ⟨h0, le_refl _⟩

theorem greedyRun_remaining {e : ℚ} :
    ∀ {ms : List EffRec} {st : GreedyState}, (∀ m ∈ ms, 0 < m.power) →
      0 ≤ st.remaining_power →
      0 ≤ (greedyRun e st ms).remaining_power ∧
        (greedyRun e st ms).remaining_power ≤ st.remaining_power := by
  intro ms
  induction ms with
  | nil => exact fun _ h0 => ⟨h0, le_refl _⟩
  | cons m ms ih =>
    intro st hpow h0
    have hstep := @greedyStep_remaining e st m
      (hpow m (List.mem_cons_self m ms)) h0
    have hrest := ih (fun x hx => hpow x (List.mem_cons_of_mem m hx)) hstep.1
    exact ⟨hrest.1, le_trans hrest.2 hstep.2⟩

theorem greedyRun_conservation {e : ℚ} :
    ∀ {ms : List EffRec} {st : GreedyState},
      (greedyRun e st ms).remaining_power + sumPower (greedyRun e st ms).allocation
        = st.remaining_power + sumPower st.allocation := by
  intro ms
  induction ms with
  | nil => intro st; rfl
  | cons m ms ih =>
    intro st
    rw [show greedyRun e st (m :: ms) = greedyRun e (greedyStep e st m) ms from rfl, ih]
    unfold greedyStep
    split_ifs with h1 h2
    · rfl
    · show st.remaining_power - Int.fdiv st.remaining_power m.power * m.power
          + sumPower (st.allocation ++ [greedyEntry e st m])
        = st.remaining_power + sumPower st.allocation
      rw [sumPower_append]
      show st.remaining_power - Int.fdiv st.remaining_power m.power * m.power
          + (sumPower st.allocation + Int.fdiv st.remaining_power m.power * m.power)
        = st.remaining_power + sumPower st.allocation
      ring
    · rfl

theorem greedyRun_profit_mono {e : ℚ} :
    ∀ {ms : List EffRec} {st : GreedyState}, (∀ m ∈ ms, 0 < m.power) →
      0 ≤ st.remaining_power →
      st.total_profit ≤ (greedyRun e st ms).total_profit := by
  intro ms
  induction ms with
  | nil => exact fun _ _ => le_refl _
  | cons m ms ih =>
    intro st hpow h0
    have hp := hpow m (List.mem_cons_self m ms)
    have hstep := @greedyStep_remaining e st m hp h0
    refine le_trans ?_ (ih (fun x hx => hpow x (List.mem_cons_of_mem m hx)) hstep.1)
    unfold greedyStep
    split_ifs with h1 h2
    · exact le_refl _
    · show st.total_profit ≤ st.total_profit + (greedyEntry e st m).profit
      have hu : (0 : Int) < Int.fdiv st.remaining_power m.power * m.power :=
        mul_pos h2 hp
      have hppw : 0 < m.profit_per_watt := lt_of_not_le h1
      have : (0 : ℚ) ≤ ((Int.fdiv st.remaining_power m.power * m.power : Int) : ℚ)
          * m.profit_per_watt := by
        apply mul_nonneg _ hppw.le
        exact_mod_cast hu.le
      have hprof : (greedyEntry e st m).profit
          = ((Int.fdiv st.remaining_power m.power * m.power : Int) : ℚ)
            * m.profit_per_watt := rfl
      rw [hprof]
      linarith
    · exact le_refl _

theorem greedyRun_alloc_mem {e : ℚ} :
    ∀ {ms : List EffRec} {st : GreedyState} {a : AllocEntry},
      a ∈ (greedyRun e st ms).allocation →
      a ∈ st.allocation ∨ ∃ m ∈ ms, a.subtype = m.subtype ∧ a.type = m.type ∧
        0 < m.profit_per_watt := by
  intro ms
  induction ms with
  | nil => exact fun h => Or.inl h
  | cons m ms ih =>
    intro st a h
    rcases ih h with h' | ⟨m', hm', h1, h2, h3⟩
    · revert h'
      unfold greedyStep
      split_ifs with hppw hu
      · exact fun h' => Or.inl h'
      · intro h'
        rcases List.mem_append.1 h' with hmem | hmem
        · exact Or.inl hmem
        · rcases List.mem_singleton.1 hmem with rfl
          exact Or.inr ⟨m, List.mem_cons_self m ms, rfl, rfl, lt_of_not_le hppw⟩
      · exact fun h' => Or.inl h'
    · exact Or.inr ⟨m', List.mem_cons_of_mem m hm', h1, h2, h3⟩

theorem greedyRun_remaining_lt {e : ℚ} :
    ∀ {ms : List EffRec} {st : GreedyState}, (∀ m ∈ ms, 0 < m.power) →
      0 ≤ st.remaining_power →
      ∀ m ∈ ms, 0 < m.profit_per_watt → (greedyRun e st ms).remaining_power < m.power := by
  intro ms
  induction ms with
  | nil => exact fun _ _ m hm => absurd hm (List.not_mem_nil m)
  | cons m0 ms ih =>
    intro st hpow h0 m hm hppw
    have hp0 := hpow m0 (List.mem_cons_self m0 ms)
    have hstep := @greedyStep_remaining e st m0 hp0 h0
    rcases List.mem_cons.1 hm with rfl | hm'
    · -- after processing `m` itself, less than one unit of it remains
      have hafter : (greedyStep e st m).remaining_power < m.power := by
        unfold greedyStep
        split_ifs with h1 h2
        · exact absurd hppw (not_lt.2 h1)
        · show st.remaining_power - Int.fdiv st.remaining_power m.power * m.power < m.power
          have hdiv : Int.fdiv st.remaining_power m.power = st.remaining_power / m.power :=
            Int.fdiv_eq_ediv _ hp0.le
          have hmod : st.remaining_power - st.remaining_power / m.power * m.power
              = st.remaining_power % m.power := by
            rw [Int.emod_def]; ring
          rw [hdiv, hmod]
          exact Int.emod_lt_of_pos _ hp0
        · -- zero units fit, so the untouched remainder is already below `m.power`
          have hdiv : Int.fdiv st.remaining_power m.power = st.remaining_power / m.power :=
            Int.fdiv_eq_ediv _ hp0.le
          have hq0 : Int.fdiv st.remaining_power m.power = 0 := by
            have hnn : 0 ≤ Int.fdiv st.remaining_power m.power := by
              rw [hdiv]; exact Int.ediv_nonneg h0 hp0.le
            omega
          have := Int.ediv_add_emod st.remaining_power m.power
          rw [← hdiv, hq0, mul_zero, zero_add] at this
          calc st.remaining_power = st.remaining_power % m.power := this.symm
            _ < m.power := Int.emod_lt_of_pos _ hp0
      have hrest := @greedyRun_remaining e ms (greedyStep e st m)
        (fun x hx => hpow x (List.mem_cons_of_mem m hx)) hstep.1
      exact lt_of_le_of_lt hrest.2 hafter
    · exact ih (fun x hx => hpow x (List.mem_cons_of_mem m0 hx)) hstep.1 m hm' hppw

theorem greedyRun_skip_all {e : ℚ} :
    ∀ {ms : List EffRec} {st : GreedyState}, (∀ m ∈ ms, m.profit_per_watt ≤ 0) →
      greedyRun e st ms = st := by
  intro ms
  induction ms with
  | nil => exact fun _ => rfl
  | cons m ms ih =>
    intro st h
    have hm := h m (List.mem_cons_self m ms)
    show greedyRun e (greedyStep e st m) ms = st
    rw [show greedyStep e st m = st by unfold greedyStep; simp [hm]]
    exact ih (fun x hx => h x (List.mem_cons_of_mem m hx))

theorem greedyRun_zero_remaining {e : ℚ} :
    ∀ {ms : List EffRec} {st : GreedyState}, (∀ m ∈ ms, 0 < m.power) →
      st.remaining_power = 0 → greedyRun e st ms = st := by
  intro ms
  induction ms with
  | nil => exact fun _ _ => rfl
  | cons m ms ih =>
    intro st hpow h0
    have hstep : greedyStep e st m = st := by
      unfold greedyStep
      have : Int.fdiv st.remaining_power m.power = 0 := by rw [h0]; exact Int.zero_fdiv _
      simp [this]
    show greedyRun e (greedyStep e st m) ms = st
    rw [hstep]
    exact ih (fun x hx => hpow x (List.mem_cons_of_mem m hx)) h0

/-! ### The single-category baseline strategies -/

theorem pickBestAux_mem :
    ∀ (l : List (String × DevSpecs × ℚ)) (best : String × DevSpecs × ℚ),
      pickBestAux best l = best ∨ pickBestAux best l ∈ l := by
  intro l
  induction l with
  | nil => exact fun best => Or.inl rfl
  | cons x xs ih =>
    intro best
    show pickBestAux (if best.2.2 < x.2.2 then x else best) xs = best
      ∨ pickBestAux (if best.2.2 < x.2.2 then x else best) xs ∈ x :: xs
    rcases ih (if best.2.2 < x.2.2 then x else best) with h | h
    · rw [h]
      split_ifs with hc
      · exact Or.inr (List.mem_cons_self x xs)
      · exact Or.inl rfl
    · exact Or.inr (List.mem_cons_of_mem x h)

theorem pickBest_mem {l : List (String × DevSpecs × ℚ)} {x : String × DevSpecs × ℚ}
    (h : pickBest l = some x) : x ∈ l := by
  cases l with
  | nil => cases h
  | cons y ys =>
    simp only [pickBest, Option.some.injEq] at h
    rcases pickBestAux_mem ys y with h' | h'
    · rw [← h, h']; exact List.mem_cons_self y ys
    · rw [← h]; exact List.mem_cons_of_mem y h'

theorem pickBest_eq_none {l : List (String × DevSpecs × ℚ)} :
    pickBest l = none ↔ l = [] := by
  cases l with
  | nil => simp [pickBest]
  | cons y ys => simp [pickBest]

/-- The candidate built for entry `x` when its power is nonzero. -/
def candOf (cap_price energy : ℚ) (x : String × DevSpecs) : String × DevSpecs × ℚ :=
  (x.1, x.2, ppwOf x.2 cap_price energy)

theorem candPpw?_ok {cap_price energy : ℚ} {x : String × DevSpecs} (h : x.2.power ≠ 0) :
    candPpw? cap_price energy x = .ok (candOf cap_price energy x) := by
  simp [candPpw?, candOf, h]

theorem singleCategory_ok {entries : List (String × DevSpecs)} {cap_price energy : ℚ}
    {B : Int} (h : ∀ x ∈ entries, x.2.power ≠ 0) :
    ∃ sm, singleCategory entries cap_price energy B = .ok sm := by
  unfold singleCategory
  rw [mapE_ok_of (g := candOf cap_price energy) (fun x hx => candPpw?_ok (h x hx))]
  exact ⟨_, rfl⟩

theorem singleCategory_empty (cap_price energy : ℚ) (B : Int) :
    singleCategory [] cap_price energy B = .ok zeroSummary := rfl

/-- Any summary a baseline returns has `total_profit = units·power·profitPerWatt`
for a member of the category (or is the zero summary), hence is bounded by
`B * w` for any nonnegative bound `w` on the category's rates. -/
theorem singleCategory_profit_le {entries : List (String × DevSpecs)}
    {cap_price energy : ℚ} {B : Int} {w : ℚ} {sm : StratSummary}
    (hpow : ∀ x ∈ entries, 0 < x.2.power) (hB : 0 ≤ B)
    (hw : ∀ x ∈ entries, ppwOf x.2 cap_price energy ≤ w) (hw0 : 0 ≤ w)
    (h : singleCategory entries cap_price energy B = .ok sm) :
    sm.total_profit ≤ (B : ℚ) * w := by
  unfold singleCategory at h
  cases hc : mapE (candPpw? cap_price energy) entries with
  | error e => rw [hc] at h; cases h
  | ok cands =>
    rw [hc] at h
    have hcands : cands = entries.map (candOf cap_price energy) :=
      mapE_ok_eq (fun x y hxy => by
        by_cases hx : x.2.power = 0
        · simp [candPpw?, hx] at hxy
        · rw [candPpw?_ok hx] at hxy; cases hxy; rfl) hc
    simp only [Except.map] at h
    cases hb : pickBest cands with
    | none =>
      rw [hb] at h
      cases h
      show (0 : ℚ) ≤ (B : ℚ) * w
      have : (0 : ℚ) ≤ (B : ℚ) := by exact_mod_cast hB
      exact mul_nonneg this hw0
    | some best =>
      rw [hb] at h
      cases h
      obtain ⟨x, hx, hbx⟩ := List.mem_map.1 (hcands ▸ pickBest_mem hb)
      have hpx : 0 < x.2.power := hpow x hx
      have hwx : ppwOf x.2 cap_price energy ≤ w := hw x hx
      -- unpack the selected candidate
      have hpower : best.2.1.power = x.2.power := by rw [← hbx]; rfl
      have hcap : best.2.1.capability = x.2.capability := by rw [← hbx]; rfl
      -- the allocated units
      set u : Int := Int.fdiv B best.2.1.power with hu
      have hdiv : u = B / x.2.power := by
        rw [hu, hpower]; exact Int.fdiv_eq_ediv _ hpx.le
      have hu0 : 0 ≤ u := by rw [hdiv]; exact Int.ediv_nonneg hB hpx.le
      have hup : u * x.2.power ≤ B := by
        rw [hdiv]; exact Int.ediv_mul_le B (ne_of_gt hpx)
      have hup0 : (0 : Int) ≤ u * x.2.power := mul_nonneg hu0 hpx.le
      show (u : ℚ) * best.2.1.capability * cap_price
          - ((u * best.2.1.power : Int) : ℚ) * energy ≤ (B : ℚ) * w
      rw [hpower, hcap]
      have hfact : (u : ℚ) * x.2.capability * cap_price
          - ((u * x.2.power : Int) : ℚ) * energy
          = ((u * x.2.power : Int) : ℚ) * ppwOf x.2 cap_price energy := by
        unfold ppwOf
        have hpne : ((x.2.power : Int) : ℚ) ≠ 0 := by
          exact_mod_cast ne_of_gt hpx
        push_cast
        field_simp
        ring
      rw [hfact]
      have h1 : ((u * x.2.power : Int) : ℚ) * ppwOf x.2 cap_price energy
          ≤ ((u * x.2.power : Int) : ℚ) * w := by
        apply mul_le_mul_of_nonneg_left hwx
        exact_mod_cast hup0
      have h2 : ((u * x.2.power : Int) : ℚ) * w ≤ (B : ℚ) * w := by
        apply mul_le_mul_of_nonneg_right _ hw0
        exact_mod_cast hup
      exact le_trans h1 h2

/-! ### The sorted efficiency list and the optimizer -/

theorem find_optimal_ok {inv : Inventory} {p : Prices} {B : Int} {now : String}
    (h : NoZeroPower inv) :
    find_optimal_allocation inv p B now
      = .ok (buildPlan (List.insertionSort effGE (machine_efficiency inv p)) p B now) := by
  unfold find_optimal_allocation
  rw [machine_efficiency?_ok h]
  rfl

theorem find_optimal_ok_inv {inv : Inventory} {p : Prices} {B : Int} {now : String}
    {pl : AllocationPlan} (h : find_optimal_allocation inv p B now = .ok pl) :
    pl = buildPlan (List.insertionSort effGE (machine_efficiency inv p)) p B now := by
  unfold find_optimal_allocation at h
  cases hc : machine_efficiency? inv p with
  | error e => rw [hc] at h; cases h
  | ok ms =>
    rw [hc] at h
    simp only [Except.map] at h
    cases h
    rw [machine_efficiency?_eq hc]

theorem sorted_head_max {hd : EffRec} {rest : List EffRec} {l : List EffRec}
    (hsort : List.insertionSort effGE l = hd :: rest) :
    ∀ m ∈ l, m.profit_per_watt ≤ hd.profit_per_watt := by
  intro m hm
  have hmem : m ∈ hd :: rest := by
    rw [← hsort]
    exact (List.mem_insertionSort effGE).2 hm
  have hsorted : List.Sorted effGE (hd :: rest) := by
    rw [← hsort]
    exact List.sorted_insertionSort effGE l
  rcases List.mem_cons.1 hmem with rfl | hm'
  · exact le_refl _
  · exact List.rel_of_sorted_cons hsorted m hm'

/-- When the top-rate machine's power divides the budget and it is profitable,
the greedy fill spends the whole budget on it at rate `hd.profit_per_watt`. -/
theorem greedyRun_profit_of_dvd {e : ℚ} {hd : EffRec} {rest : List EffRec} {B : Int}
    (hpow : ∀ m ∈ hd :: rest, 0 < m.power) (hB : 0 ≤ B)
    (hdvd : hd.power ∣ B) (hppw : 0 < hd.profit_per_watt) :
    (greedyRun e (initState B) (hd :: rest)).total_profit
      = (B : ℚ) * hd.profit_per_watt := by
  have hp : 0 < hd.power := hpow hd (List.mem_cons_self hd rest)
  have hdiv : Int.fdiv B hd.power = B / hd.power := Int.fdiv_eq_ediv _ hp.le
  by_cases hB0 : B = 0
  · subst hB0
    have hstep : greedyStep e (initState 0) hd = initState 0 := by
      unfold greedyStep
      have : Int.fdiv (initState 0).remaining_power hd.power = 0 := Int.zero_fdiv _
      simp [this]
    show (greedyRun e (greedyStep e (initState 0) hd) rest).total_profit = _
    rw [hstep, greedyRun_zero_remaining (fun m hm => hpow m (List.mem_cons_of_mem hd hm)) rfl]
    simp [initState]
  · have hBpos : 0 < B := lt_of_le_of_ne hB (Ne.symm hB0)
    have hdvd' := hdvd
    obtain ⟨k, hk⟩ := hdvd'
    have hkpos : 0 < k := by nlinarith
    have hu : Int.fdiv B hd.power = k := by
      rw [hdiv, hk, Int.mul_ediv_cancel_left k (ne_of_gt hp)]
    have hu0 : 0 < Int.fdiv B hd.power := hu ▸ hkpos
    have hup : Int.fdiv B hd.power * hd.power = B := by
      rw [hdiv]
      exact Int.ediv_mul_cancel hdvd
    have hstep : greedyStep e (initState B) hd =
        { allocation := [greedyEntry e (initState B) hd]
          remaining_power := 0
          total_profit := (B : ℚ) * hd.profit_per_watt
          total_revenue := (B : ℚ) * hd.revenue_per_watt
          total_cost := (B : ℚ) * e } := by
      unfold greedyStep
      split_ifs with h1 h2
      · exact absurd hppw (not_lt.2 h1)
      · simp only [greedyEntry, initState]
        simp [hup]
      · exact absurd hu0 h2
    show (greedyRun e (greedyStep e (initState B) hd) rest).total_profit = _
    rw [hstep, greedyRun_zero_remaining (fun m hm => hpow m (List.mem_cons_of_mem hd hm)) rfl]

/-! ### Further helpers for the claim theorems -/

/-- The roi field always satisfies the guarded division law. -/
theorem roi_ite {P C R : ℚ} (hR : R = if 0 < C then P / C * 100 else 0) :
    (0 < C → R = P / C * 100) ∧ (C = 0 → R = 0) := by
  constructor
  · intro h; rw [hR, if_pos h]
  · intro h
    rw [hR, if_neg]
    rw [h]
    exact lt_irrefl 0

theorem singleCategory_roi {entries : List (String × DevSpecs)} {cap_price energy : ℚ}
    {B : Int} {sm : StratSummary} (h : singleCategory entries cap_price energy B = .ok sm) :
    sm.roi_percentage
      = if 0 < sm.total_cost then sm.total_profit / sm.total_cost * 100 else 0 := by
  unfold singleCategory at h
  cases hc : mapE (candPpw? cap_price energy) entries with
  | error e => rw [hc] at h; cases h
  | ok cands =>
    rw [hc] at h
    simp only [Except.map] at h
    cases hb : pickBest cands with
    | none =>
      rw [hb] at h
      cases h
      simp [zeroSummary]
    | some best =>
      rw [hb] at h
      cases h
      rfl

/-- All fields of the optimizer's result except the wall-clock `timestamp`. -/
def planData (pl : AllocationPlan) :
    List AllocEntry × Int × ℚ × ℚ × ℚ × ℚ × Prices :=
  (pl.allocation, pl.total_power_used, pl.total_profit, pl.total_revenue,
    pl.total_cost, pl.roi_percentage, pl.prices)

/-! ### The claims -/

/-- Claim C6: for every catalog with positive `powerWatts`, every price
snapshot, and every non-negative power budget, the optimizer's plan satisfies
`totalPowerUsed ≤ powerBudget` and `totalPowerUsed = Σ entries.powerUsed`. -/
theorem C6_budget_containment (inv : Inventory) (p : Prices) (B : Int) (now : String)
    (hpow : PosPowers inv) (hB : 0 ≤ B) :
    ∃ pl, find_optimal_allocation inv p B now = .ok pl ∧
      pl.total_power_used ≤ B ∧ pl.total_power_used = sumPower pl.allocation := by
  refine ⟨_, find_optimal_ok (noZero_of_pos hpow), ?_, ?_⟩
  · show B - (greedyRun p.energy_price (initState B)
      (List.insertionSort effGE (machine_efficiency inv p))).remaining_power ≤ B
    have hrem := @greedyRun_remaining p.energy_price
      (List.insertionSort effGE (machine_efficiency inv p)) (initState B)
      (fun m hm => machine_efficiency_power_pos hpow m ((List.mem_insertionSort effGE).1 hm))
      hB
    omega
  · show B - (greedyRun p.energy_price (initState B)
        (List.insertionSort effGE (machine_efficiency inv p))).remaining_power
      = sumPower (greedyRun p.energy_price (initState B)
        (List.insertionSort effGE (machine_efficiency inv p))).allocation
    have hcons := @greedyRun_conservation p.energy_price
      (List.insertionSort effGE (machine_efficiency inv p)) (initState B)
    have hinit : sumPower (initState B).allocation = 0 := rfl
    rw [show (initState B).remaining_power = B from rfl, hinit] at hcons
    omega

/-- Claim C6 witness at the hardcoded default inventory and prices. -/
theorem C6_budget_containment_witness :
    ∃ pl, find_optimal_allocation defaultInv defaultPrices 1000000 "t" = .ok pl ∧
      pl.total_power_used ≤ 1000000 ∧ pl.total_power_used = sumPower pl.allocation :=
  C6_budget_containment defaultInv defaultPrices 1000000 "t" (by decide) (by decide)

/-- Claim C7: every allocation entry in the optimizer's plan comes from a
catalog device whose `profit_per_watt` at the snapshot's prices is strictly
positive; unprofitable devices never appear. -/
theorem C7_profitability_filter (inv : Inventory) (p : Prices) (B : Int) (now : String)
    (h : NoZeroPower inv) :
    ∃ pl, find_optimal_allocation inv p B now = .ok pl ∧
      ∀ a ∈ pl.allocation, ∃ m ∈ machine_efficiency inv p,
        a.subtype = m.subtype ∧ a.type = m.type ∧ 0 < m.profit_per_watt := by
  refine ⟨_, find_optimal_ok h, ?_⟩
  intro a ha
  have ha' : a ∈ (greedyRun p.energy_price (initState B)
      (List.insertionSort effGE (machine_efficiency inv p))).allocation := ha
  rcases greedyRun_alloc_mem ha' with hnil | ⟨m, hm, h1, h2, h3⟩
  · exact absurd hnil (List.not_mem_nil a)
  · exact ⟨m, (List.mem_insertionSort effGE).1 hm, h1, h2, h3⟩

/-- Claim C7 witness at the default inventory and prices. -/
theorem C7_profitability_filter_witness :
    ∃ pl, find_optimal_allocation defaultInv defaultPrices 1000000 "t" = .ok pl ∧
      ∀ a ∈ pl.allocation, ∃ m ∈ machine_efficiency defaultInv defaultPrices,
        a.subtype = m.subtype ∧ a.type = m.type ∧ 0 < m.profit_per_watt :=
  C7_profitability_filter defaultInv defaultPrices 1000000 "t" (by decide)

/-- Claim C9: with positive power draws, non-negative prices and a
non-negative budget, the optimizer's total profit is never negative. -/
theorem C9_nonnegative_profit (inv : Inventory) (p : Prices) (B : Int) (now : String)
    (hpow : PosPowers inv) (he : 0 ≤ p.energy_price) (hh : 0 ≤ p.hash_price)
    (ht : 0 ≤ p.token_price) (hB : 0 ≤ B) :
    ∃ pl, find_optimal_allocation inv p B now = .ok pl ∧ 0 ≤ pl.total_profit := by
  refine ⟨_, find_optimal_ok (noZero_of_pos hpow), ?_⟩
  show (0 : ℚ) ≤ (greedyRun p.energy_price (initState B)
    (List.insertionSort effGE (machine_efficiency inv p))).total_profit
  have := @greedyRun_profit_mono p.energy_price
    (List.insertionSort effGE (machine_efficiency inv p)) (initState B)
    (fun m hm => machine_efficiency_power_pos hpow m ((List.mem_insertionSort effGE).1 hm))
    hB
  simpa [initState] using this

/-- Claim C9 witness at the default inventory and prices. -/
theorem C9_nonnegative_profit_witness :
    ∃ pl, find_optimal_allocation defaultInv defaultPrices 1000000 "t" = .ok pl ∧
      0 ≤ pl.total_profit :=
  C9_nonnegative_profit defaultInv defaultPrices 1000000 "t"
    (by decide) (by norm_num [defaultPrices]) (by norm_num [defaultPrices])
    (by norm_num [defaultPrices]) (by decide)

/-- Claim C10: after the optimizer returns, the unused budget is strictly
smaller than the power draw of every profitable catalog device: no further
whole unit fits (valid inputs: positive power draws, non-negative budget). -/
theorem C10_no_unit_fits (inv : Inventory) (p : Prices) (B : Int) (now : String)
    (hpow : PosPowers inv) (hB : 0 ≤ B) :
    ∃ pl, find_optimal_allocation inv p B now = .ok pl ∧
      ∀ m ∈ machine_efficiency inv p, 0 < m.profit_per_watt →
        B - pl.total_power_used < m.power := by
  refine ⟨_, find_optimal_ok (noZero_of_pos hpow), ?_⟩
  intro m hm hppw
  have hlt := @greedyRun_remaining_lt p.energy_price
    (List.insertionSort effGE (machine_efficiency inv p)) (initState B)
    (fun x hx => machine_efficiency_power_pos hpow x ((List.mem_insertionSort effGE).1 hx))
    hB m ((List.mem_insertionSort effGE).2 hm) hppw
  show B - (B - (greedyRun p.energy_price (initState B)
    (List.insertionSort effGE (machine_efficiency inv p))).remaining_power) < m.power
  omega

/-- Claim C10 witness at the default inventory and prices. -/
theorem C10_no_unit_fits_witness :
    ∃ pl, find_optimal_allocation defaultInv defaultPrices 1000000 "t" = .ok pl ∧
      ∀ m ∈ machine_efficiency defaultInv defaultPrices, 0 < m.profit_per_watt →
        1000000 - pl.total_power_used < m.power :=
  C10_no_unit_fits defaultInv defaultPrices 1000000 "t" (by decide) (by decide)

/-- Claim C8: in every result of the optimizer and of both baseline
strategies, `roiPercentage = totalProfit / totalCost * 100` when
`totalCost > 0` and `roiPercentage = 0` when `totalCost = 0`; the guarded
rational arithmetic never divides by zero. -/
theorem C8_roi_safety (inv : Inventory) (p : Prices) (B : Int) (now : String)
    (h : NoZeroPower inv) :
    (∃ pl, find_optimal_allocation inv p B now = .ok pl ∧
      (0 < pl.total_cost → pl.roi_percentage = pl.total_profit / pl.total_cost * 100) ∧
      (pl.total_cost = 0 → pl.roi_percentage = 0)) ∧
    (∃ sm, _mining_only_strategy inv p B = .ok sm ∧
      (0 < sm.total_cost → sm.roi_percentage = sm.total_profit / sm.total_cost * 100) ∧
      (sm.total_cost = 0 → sm.roi_percentage = 0)) ∧
    (∃ si, _inference_only_strategy inv p B = .ok si ∧
      (0 < si.total_cost → si.roi_percentage = si.total_profit / si.total_cost * 100) ∧
      (si.total_cost = 0 → si.roi_percentage = 0)) := by
  refine ⟨⟨_, find_optimal_ok h, roi_ite rfl⟩, ?_, ?_⟩
  · obtain ⟨sm, hsm⟩ := singleCategory_ok (h := h.1)
    exact ⟨sm, hsm, roi_ite (singleCategory_roi hsm)⟩
  · obtain ⟨si, hsi⟩ := singleCategory_ok (h := h.2)
    exact ⟨si, hsi, roi_ite (singleCategory_roi hsi)⟩

/-- Claim C8 witness at the default inventory and prices. -/
theorem C8_roi_safety_witness :
    (∃ pl, find_optimal_allocation defaultInv defaultPrices 1000000 "t" = .ok pl ∧
      (0 < pl.total_cost → pl.roi_percentage = pl.total_profit / pl.total_cost * 100) ∧
      (pl.total_cost = 0 → pl.roi_percentage = 0)) ∧
    (∃ sm, _mining_only_strategy defaultInv defaultPrices 1000000 = .ok sm ∧
      (0 < sm.total_cost → sm.roi_percentage = sm.total_profit / sm.total_cost * 100) ∧
      (sm.total_cost = 0 → sm.roi_percentage = 0)) ∧
    (∃ si, _inference_only_strategy defaultInv defaultPrices 1000000 = .ok si ∧
      (0 < si.total_cost → si.roi_percentage = si.total_profit / si.total_cost * 100) ∧
      (si.total_cost = 0 → si.roi_percentage = 0)) :=
  C8_roi_safety defaultInv defaultPrices 1000000 "t" (by decide)

/-- A catalog with no devices at all. -/
def emptyInv : Inventory := { miners := [], inference := [] }

/-- A catalog whose only device has negative power draw. -/
def negPowerInv : Inventory :=
  { miners := [("neg", { power := -3500, capability := 1000 })], inference := [] }

/-- A catalog whose only device has zero power draw. -/
def zeroPowerInv : Inventory :=
  { miners := [("z", { power := 0, capability := 1000 })], inference := [] }

/-- A catalog whose only miner is unprofitable at `unprofitablePrices`. -/
def unprofitableInv : Inventory :=
  { miners := [("bad", { power := 1000, capability := 1 })], inference := [] }

/-- Prices making `unprofitableInv`'s miner lose money:
`profitPerWatt = 1·(1/2)/1000 - 1 < 0`. -/
def unprofitablePrices : Prices :=
  { energy_price := 1, hash_price := 1/2, token_price := 0 }

/-- Claim C2 (amended): two optimizer calls with identical catalog, prices
and budget agree on every field of the result except `timestamp`, which
records the wall-clock time of the call; the computation itself is a pure
function of the inputs. -/
theorem C2_determinism_modulo_timestamp (inv : Inventory) (p : Prices) (B : Int)
    (now1 now2 : String) :
    (find_optimal_allocation inv p B now1).map planData
      = (find_optimal_allocation inv p B now2).map planData := by
  unfold find_optimal_allocation
  cases machine_efficiency? inv p <;> rfl

/-- Claim C2 counterexample: two calls at different wall-clock instants
return plans that differ (in the `timestamp` field), so the results are not
bit-identical as the claim requires. -/
theorem C2_counterexample :
    find_optimal_allocation emptyInv defaultPrices 1000000 "2024-01-01T00:00:00"
      ≠ find_optimal_allocation emptyInv defaultPrices 1000000 "2024-01-01T00:00:01" := by
  intro h
  have h' := congrArg (Except.map AllocationPlan.timestamp) h
  simp [find_optimal_allocation, machine_efficiency?, mapE, Except.map, buildPlan,
    emptyInv] at h'

/-- Claim C3: the code performs no input validation at all.  A catalog entry
with `powerWatts = -3500` is processed silently into a plan (no
InvalidCatalog condition exists anywhere); an entry with `powerWatts = 0`
raises an unhandled `ZeroDivisionError` from inside the efficiency
computation, after analysis has begun; a negative budget is likewise
silently computed with and yields a plan (no InvalidBudget condition). -/
theorem C3_no_validation :
    (find_optimal_allocation negPowerInv defaultPrices 1000000 "t").map
        AllocationPlan.total_power_used = .ok 0
    ∧ find_optimal_allocation zeroPowerInv defaultPrices 1000000 "t"
      = .error .zeroDivisionError
    ∧ (find_optimal_allocation defaultInv defaultPrices (-5) "t").map
        AllocationPlan.total_power_used = .ok 0 := by
  refine ⟨?_, ?_, ?_⟩
  · norm_num [find_optimal_allocation, machine_efficiency?, machine_efficiency, mapE,
      mkEffRec?, mkEffRec, capPrice, ppwOf, List.insertionSort, List.orderedInsert, effGE,
      buildPlan, greedyRun, greedyStep, greedyEntry, initState, Except.map, negPowerInv,
      defaultPrices]
  · norm_num [find_optimal_allocation, machine_efficiency?, mapE, mkEffRec?, Except.map,
      zeroPowerInv]
  · have h1 : Int.fdiv (-5) 15000 = -1 := by decide
    have h2 : Int.fdiv (-5) 5000 = -1 := by decide
    have h3 : Int.fdiv (-5) 10000 = -1 := by decide
    have h4 : Int.fdiv (-5) 3500 = -1 := by decide
    norm_num [find_optimal_allocation, machine_efficiency?, machine_efficiency, mapE,
      mkEffRec?, mkEffRec, capPrice, ppwOf, List.insertionSort, List.orderedInsert, effGE,
      buildPlan, greedyRun, greedyStep, greedyEntry, initState, Except.map, defaultInv,
      defaultPrices, h1, h2, h3, h4]

/-- Claim C4 counterexample: with a single unprofitable miner
(`profitPerWatt = 0.0005 - 1 < 0`), `_mining_only_strategy` does not return
the zero plan: it allocates the miner anyway and reports a negative
`totalProfit`. -/
theorem C4_counterexample :
    (∀ x ∈ unprofitableInv.miners,
      ppwOf x.2 unprofitablePrices.hash_price unprofitablePrices.energy_price ≤ 0)
    ∧ (_mining_only_strategy unprofitableInv unprofitablePrices 1000).map
        StratSummary.total_profit = .ok (-(1999/2))
    ∧ ¬ (-(1999/2) : ℚ) = 0 := by
  refine ⟨?_, ?_, by norm_num⟩
  · intro x hx
    rcases List.mem_singleton.1 hx with rfl
    norm_num [ppwOf, unprofitablePrices]
  · have h1 : Int.fdiv 1000 1000 = 1 := by decide
    norm_num [_mining_only_strategy, singleCategory, mapE, candPpw?, ppwOf, pickBest,
      pickBestAux, zeroSummary, Except.map, unprofitableInv, unprofitablePrices, h1]

/-- Claim C4 (amended): each baseline returns the zero plan exactly when its
category is empty; when candidates exist but every `profitPerWatt` is `≤ 0`,
the best (least bad) candidate is still allocated, and for a non-negative
budget the resulting `totalProfit` is at most `0` (possibly negative), not
necessarily the zero plan. -/
theorem C4_amended_zero_plan (inv : Inventory) (p : Prices) (B : Int) (hB : 0 ≤ B) :
    (inv.miners = [] → _mining_only_strategy inv p B = .ok zeroSummary)
    ∧ (inv.inference = [] → _inference_only_strategy inv p B = .ok zeroSummary)
    ∧ ((∀ x ∈ inv.miners, 0 < x.2.power) →
        (∀ x ∈ inv.miners, ppwOf x.2 p.hash_price p.energy_price ≤ 0) →
        ∀ sm, _mining_only_strategy inv p B = .ok sm → sm.total_profit ≤ 0)
    ∧ ((∀ x ∈ inv.inference, 0 < x.2.power) →
        (∀ x ∈ inv.inference, ppwOf x.2 p.token_price p.energy_price ≤ 0) →
        ∀ si, _inference_only_strategy inv p B = .ok si → si.total_profit ≤ 0) := by
  refine ⟨?_, ?_, ?_, ?_⟩
  · intro h
    unfold _mining_only_strategy
    rw [h]
    exact singleCategory_empty _ _ _
  · intro h
    unfold _inference_only_strategy
    rw [h]
    exact singleCategory_empty _ _ _
  · intro hpow hw sm hsm
    have := singleCategory_profit_le hpow hB hw (le_refl 0) hsm
    simpa using this
  · intro hpow hw si hsi
    have := singleCategory_profit_le hpow hB hw (le_refl 0) hsi
    simpa using this

/-- Claim C4 witness: the empty-category halves applied to an empty catalog. -/
theorem C4_amended_zero_plan_witness :
    _mining_only_strategy emptyInv defaultPrices 1000 = .ok zeroSummary
    ∧ _inference_only_strategy emptyInv defaultPrices 1000 = .ok zeroSummary :=
  ⟨(C4_amended_zero_plan emptyInv defaultPrices 1000 (by decide)).1 rfl,
   (C4_amended_zero_plan emptyInv defaultPrices 1000 (by decide)).2.1 rfl⟩

/-! ### Claims C5 and C1 -/

theorem runStrategy_ok {inv : Inventory} {B : Int} {strat : Strategy} {p : Prices}
    {now : String} (h : NoZeroPower inv) :
    ∃ s, runStrategy inv B strat p now = .ok s := by
  cases strat with
  | optimal =>
    simp only [runStrategy]
    rw [find_optimal_ok h]
    exact ⟨_, rfl⟩
  | mining_only => exact singleCategory_ok h.1
  | inference_only => exact singleCategory_ok h.2

theorem simRecord_ok {inv : Inventory} {B : Int} {strat : Strategy} {now : String}
    {row : PriceRow} (h : NoZeroPower inv) :
    ∃ r, simRecord inv B strat now row = .ok r ∧ r.timestamp = row.timestamp := by
  obtain ⟨s, hs⟩ := @runStrategy_ok inv B strat row.toPrices now h
  refine ⟨RunRecord.mk row.timestamp s.total_profit s.total_revenue s.total_cost
    s.roi_percentage, ?_, rfl⟩
  unfold simRecord
  rw [hs]
  rfl

/-- Claim C5 counterexample: on an empty price history the simulator returns
`None` (the Python `None` value), not an empty sequence of records. -/
theorem C5_counterexample :
    simulate_strategy defaultInv 1000000 Strategy.optimal [] "t" = none := rfl

/-- Claim C5 (amended): for a non-empty price history (and a catalog without
zero-power devices), the simulator returns exactly one record per input
snapshot, in the same order, each tagged with its snapshot's timestamp; for
an empty history it returns `None` instead of an empty sequence. -/
theorem C5_simulator_shape (inv : Inventory) (B : Int) (strat : Strategy)
    (history : List PriceRow) (now : String) (hne : history ≠ []) (h : NoZeroPower inv) :
    ∃ recs, simulate_strategy inv B strat history now = some (.ok recs) ∧
      recs.length = history.length ∧
      ∀ i (h1 : i < history.length) (h2 : i < recs.length),
        (recs.get ⟨i, h2⟩).timestamp = (history.get ⟨i, h1⟩).timestamp := by
  obtain ⟨recs, hrecs, hlen, hall⟩ := mapE_ok_exists
    (f := simRecord inv B strat now) (P := fun row r => r.timestamp = row.timestamp)
    (fun row _ => simRecord_ok h)
  refine ⟨recs, ?_, hlen, hall⟩
  have hne' : history.isEmpty = false := by
    cases history with
    | nil => exact absurd rfl hne
    | cons a l => rfl
  simp [simulate_strategy, hne', hrecs]

/-- A single historical pricing row. -/
def samplePriceRow : PriceRow :=
  { timestamp := "2024-01-01T00:00:00"
    energy_price := 0.65
    hash_price := 8.5
    token_price := 3 }

/-- Claim C5 witness on a one-snapshot history. -/
theorem C5_simulator_shape_witness :
    ∃ recs, simulate_strategy defaultInv 1000000 Strategy.optimal [samplePriceRow] "t"
        = some (.ok recs) ∧
      recs.length = [samplePriceRow].length ∧
      ∀ i (h1 : i < [samplePriceRow].length) (h2 : i < recs.length),
        (recs.get ⟨i, h2⟩).timestamp
          = (([samplePriceRow] : List PriceRow).get ⟨i, h1⟩).timestamp :=
  C5_simulator_shape defaultInv 1000000 Strategy.optimal [samplePriceRow] "t"
    (by simp) (by decide)

/-- The catalog of the C1 counterexample: the miner has the lower rate but
packs the budget exactly; the inference device has the higher rate but
strands 40% of the budget. -/
def gapInv : Inventory :=
  { miners := [("m", { power := 50, capability := 450 })]
    inference := [("a", { power := 60, capability := 600 })] }

/-- Prices for the C1 counterexample: profit-per-watt 9 for the miner,
10 for the inference device. -/
def gapPrices : Prices := { energy_price := 0, hash_price := 1, token_price := 1 }

/-- Claim C1 counterexample: with budget 100, the greedy optimizer takes one
unit of the rate-10 inference device (60 W, profit 600) and can no longer
fit the rate-9 miner, while the mining-only baseline fits two miners
(100 W, profit 900): `optimal.totalProfit < miningOnly.totalProfit`, so the
claimed dominance over `max(miningOnly, inferenceOnly)` fails. -/
theorem C1_counterexample :
    (find_optimal_allocation gapInv gapPrices 100 "t").map AllocationPlan.total_profit
      = .ok 600
    ∧ (_mining_only_strategy gapInv gapPrices 100).map StratSummary.total_profit = .ok 900
    ∧ (_inference_only_strategy gapInv gapPrices 100).map StratSummary.total_profit = .ok 600
    ∧ ¬ ((600 : ℚ) ≥ 900) := by
  refine ⟨?_, ?_, ?_, by norm_num⟩
  · have h1 : Int.fdiv 100 60 = 1 := by decide
    have h2 : Int.fdiv 40 50 = 0 := by decide
    norm_num [find_optimal_allocation, machine_efficiency?, machine_efficiency, mapE,
      mkEffRec?, mkEffRec, capPrice, ppwOf, List.insertionSort, List.orderedInsert, effGE,
      buildPlan, greedyRun, greedyStep, greedyEntry, initState, Except.map, gapInv,
      gapPrices, h1, h2]
  · have h1 : Int.fdiv 100 50 = 2 := by decide
    norm_num [_mining_only_strategy, singleCategory, mapE, candPpw?, ppwOf, pickBest,
      pickBestAux, zeroSummary, Except.map, gapInv, gapPrices, h1]
  · have h1 : Int.fdiv 100 60 = 1 := by decide
    norm_num [_inference_only_strategy, singleCategory, mapE, candPpw?, ppwOf, pickBest,
      pickBestAux, zeroSummary, Except.map, gapInv, gapPrices, h1]

/-- Claim C1 (amended): the dominance
`optimal.totalProfit ≥ max(miningOnly, inferenceOnly)` holds whenever the
power draw of a device of globally maximal `profit_per_watt` (the head of
the sorted efficiency list) divides the power budget — in particular
whenever the greedy fill can spend the budget exactly.  In general the
integrality gap of the floor division lets a baseline exceed the greedy
optimizer (see the counterexample). -/
theorem C1_amended_dominance (inv : Inventory) (p : Prices) (B : Int) (now : String)
    (hd : EffRec) (rest : List EffRec) (hpow : PosPowers inv) (hB : 0 ≤ B)
    (hsort : List.insertionSort effGE (machine_efficiency inv p) = hd :: rest)
    (hdvd : hd.power ∣ B) :
    ∃ pl sm si,
      find_optimal_allocation inv p B now = .ok pl
      ∧ _mining_only_strategy inv p B = .ok sm
      ∧ _inference_only_strategy inv p B = .ok si
      ∧ sm.total_profit ≤ pl.total_profit ∧ si.total_profit ≤ pl.total_profit := by
  obtain ⟨sm, hsm⟩ := singleCategory_ok (fun x hx => ne_of_gt (hpow.1 x hx))
  obtain ⟨si, hsi⟩ := singleCategory_ok (fun x hx => ne_of_gt (hpow.2 x hx))
  have hpows : ∀ m ∈ hd :: rest, 0 < m.power := by
    intro m hm
    apply machine_efficiency_power_pos hpow
    apply (List.mem_insertionSort effGE).1
    rw [hsort]
    exact hm
  have hmax : ∀ m ∈ machine_efficiency inv p, m.profit_per_watt ≤ hd.profit_per_watt :=
    sorted_head_max hsort
  have hpl : find_optimal_allocation inv p B now = .ok (buildPlan (hd :: rest) p B now) := by
    rw [find_optimal_ok (noZero_of_pos hpow), hsort]
  have hplprofit : (buildPlan (hd :: rest) p B now).total_profit
      = (greedyRun p.energy_price (initState B) (hd :: rest)).total_profit := rfl
  have hwm : ∀ x ∈ inv.miners,
      ppwOf x.2 p.hash_price p.energy_price ≤ hd.profit_per_watt := by
    intro x hx
    have hmem : mkEffRec .miner p x ∈ machine_efficiency inv p :=
      List.mem_append_left _ (List.mem_map_of_mem _ hx)
    simpa [mkEffRec_ppw, capPrice] using hmax _ hmem
  have hwi : ∀ x ∈ inv.inference,
      ppwOf x.2 p.token_price p.energy_price ≤ hd.profit_per_watt := by
    intro x hx
    have hmem : mkEffRec .inference p x ∈ machine_efficiency inv p :=
      List.mem_append_right _ (List.mem_map_of_mem _ hx)
    simpa [mkEffRec_ppw, capPrice] using hmax _ hmem
  have hkey : sm.total_profit ≤ (buildPlan (hd :: rest) p B now).total_profit
      ∧ si.total_profit ≤ (buildPlan (hd :: rest) p B now).total_profit := by
    rcases le_or_lt hd.profit_per_watt 0 with hppw | hppw
    · have hall : ∀ m ∈ hd :: rest, m.profit_per_watt ≤ 0 := by
        intro m hm
        have hmem : m ∈ machine_efficiency inv p := by
          apply (List.mem_insertionSort effGE).1
          rw [hsort]
          exact hm
        exact le_trans (hmax m hmem) hppw
      have h0 : (buildPlan (hd :: rest) p B now).total_profit = 0 := by
        rw [hplprofit, greedyRun_skip_all hall]
        rfl
      rw [h0]
      constructor
      · have := singleCategory_profit_le hpow.1 hB
          (fun x hx => le_trans (hwm x hx) hppw) (le_refl 0) hsm
        simpa using this
      · have := singleCategory_profit_le hpow.2 hB
          (fun x hx => le_trans (hwi x hx) hppw) (le_refl 0) hsi
        simpa using this
    · have hprofit : (buildPlan (hd :: rest) p B now).total_profit
          = (B : ℚ) * hd.profit_per_watt := by
        rw [hplprofit]
        exact greedyRun_profit_of_dvd hpows hB hdvd hppw
      rw [hprofit]
      exact ⟨singleCategory_profit_le hpow.1 hB hwm hppw.le hsm,
        singleCategory_profit_le hpow.2 hB hwi hppw.le hsi⟩
  exact ⟨_, sm, si, hpl, hsm, hsi, hkey.1, hkey.2⟩

/-- The catalog of the C1 witness: one profitable miner whose power divides
the budget. -/
def w1Inv : Inventory :=
  { miners := [("m", { power := 50, capability := 450 })], inference := [] }

/-- Prices for the C1 witness. -/
def w1Prices : Prices := { energy_price := 0, hash_price := 1, token_price := 1 }

/-- Claim C1 witness: the amended dominance at a concrete input where the
top device's power (50) divides the budget (100). -/
theorem C1_amended_dominance_witness :
    ∃ pl sm si,
      find_optimal_allocation w1Inv w1Prices 100 "t" = .ok pl
      ∧ _mining_only_strategy w1Inv w1Prices 100 = .ok sm
      ∧ _inference_only_strategy w1Inv w1Prices 100 = .ok si
      ∧ sm.total_profit ≤ pl.total_profit ∧ si.total_profit ≤ pl.total_profit :=
  C1_amended_dominance w1Inv w1Prices 100 "t"
    (mkEffRec .miner w1Prices ("m", { power := 50, capability := 450 })) []
    (by decide) (by decide) rfl ⟨2, by decide⟩

end Mara
